import Mathlib

/-!
# Verification of the dae-cpp DAE solver specification

Shallow embedding of the dae-cpp library sources (solver.h, mass_matrix.h,
the Robertson example, the perovskite analytical Jacobian) together with a
model of the time-integration loop taken from the specification, and proofs
of the specification claims about them.
-/

set_option maxHeartbeats 1000000

namespace DaeCpp

/-- Three-array CSR sparse matrix holder (`sparse_matrix_holder` in
`typedefs.h`): values `A`, column indices `ja`, row pointers `ia`. -/
structure SMH (α : Type) where
  A : List α
  ja : List ℕ
  ia : List ℕ
deriving DecidableEq, Repr

/-- The dense entry at row `i`, column `j` denoted by a CSR holder: the sum of
the stored values `A[k]` with `ia[i] ≤ k < ia[i+1]` and `ja[k] = j`.
(When the CSR data has no duplicate `(row, col)` entries this is the unique
stored value, or `0` when the position is structurally absent.) -/
def csrEntry {α : Type} [AddCommMonoid α] (h : SMH α) (i j : ℕ) : α :=
  (((List.range h.ja.length).filter fun k =>
      decide (h.ia.getD i 0 ≤ k) && decide (k < h.ia.getD (i+1) 0)
        && decide (h.ja.getD k 0 = j)).map fun k => h.A.getD k 0).sum

/-! ## The Robertson example (`examples/robertson/robertson.cpp`) -/

namespace Robertson

/-- `MyRHS::operator()`: the right-hand side of the Robertson DAE, transcribed
from `robertson.cpp`. The state is a vector of three reals, the result the
residual vector `f`. -/
def MyRHS (x : Fin 3 → ℝ) (_t : ℝ) : Fin 3 → ℝ :=
  ![-0.04 * x 0 + 1.0e4 * x 1 * x 2,
    0.04 * x 0 - 1.0e4 * x 1 * x 2 - 3.0e7 * x 1 * x 1,
    x 0 + x 1 + x 2 - 1]

/-- `MyMassMatrix::operator()`: fills the CSR holder with the singular mass
matrix `diag(1, 1, 0)`, keeping the explicit zero on the third diagonal.
Transcribed from `robertson.cpp`. -/
def MyMassMatrix : SMH ℝ :=
  { A := [1, 1, 0], ja := [0, 1, 2], ia := [0, 1, 2, 3] }

/-- `MyJacobian::operator()`: the analytical Jacobian of the Robertson RHS in
CSR form, transcribed from `robertson.cpp`. -/
def MyJacobian (x : Fin 3 → ℝ) (_t : ℝ) : SMH ℝ :=
  { A := [-0.04, 1.0e4 * x 2, 1.0e4 * x 1,
          0.04, -1.0e4 * x 2 - 6.0e7 * x 1, -1.0e4 * x 1,
          1.0, 1.0, 1.0],
    ja := [0, 1, 2, 0, 1, 2, 0, 1, 2],
    ia := [0, 3, 6, 9] }

/-- The final comparison in `main` of `robertson.cpp` (double-precision
branch): the test fails when the total relative error exceeds 1% or the
conservation-law deviation exceeds `1e-14`. -/
def check_result (result conservation : ℚ) : Bool :=
  decide (result > 1.0) || decide (conservation > 1e-14)

/-- `main`'s return value: `check_result` converted to an `int` exit status. -/
def mainReturn (result conservation : ℚ) : ℕ :=
  if check_result result conservation then 1 else 0

end Robertson

/-- The return type of `Solver::operator()(state_type &x, const double t1)` in
`solver.h`: the call is declared `void`, so it carries no value back to the
caller. -/
def SolverCallReturn : Type := Unit

instance : Subsingleton SolverCallReturn := ⟨fun a b => by cases a; cases b; rfl⟩

/-! ## The perovskite analytical Jacobian (`perovskite_Jacobian.cpp`) -/

namespace Perovskite

/-- One row of the perovskite `MyJacobian::operator()`: the `(column, value)`
pairs pushed onto `(J.ja, J.A)` for row `i`, transcribed branch by branch from
the source. `invh2` and `invlam2` are the precomputed locals
`m_p.invh * m_p.invh` and `1.0 / (m_p.lambda * m_p.lambda)`. All accesses to
`x` (here via `getD`) are in bounds when `N ≥ 2` and `x.length = 2 * N`. -/
def perovRow (N : ℕ) (x : List ℝ) (invh2 invlam2 : ℝ) (i : ℕ) : List (ℕ × ℝ) :=
  if i = 0 then
    [(0, (-1.0 + 0.5 * (x.getD (N+1) 0 - x.getD N 0)) * invh2),
     (1, (1.0 + 0.5 * (x.getD (N+1) 0 - x.getD N 0)) * invh2),
     (N, -0.5 * (x.getD 0 0 + x.getD 1 0) * invh2),
     (N+1, 0.5 * (x.getD 0 0 + x.getD 1 0) * invh2)]
  else if i < N - 1 then
    [(i-1, (1.0 - 0.5 * (x.getD (N+i) 0 - x.getD (N+i-1) 0)) * invh2),
     (i, (-2.0 + 0.5 * (x.getD (N+i+1) 0 - 2.0 * x.getD (N+i) 0 + x.getD (N+i-1) 0)) * invh2),
     (i+1, (1.0 + 0.5 * (x.getD (N+i+1) 0 - x.getD (N+i) 0)) * invh2),
     (N+i-1, 0.5 * (x.getD i 0 + x.getD (i-1) 0) * invh2),
     (N+i, -0.5 * (x.getD (i+1) 0 + 2.0 * x.getD i 0 + x.getD (i-1) 0) * invh2),
     (N+i+1, 0.5 * (x.getD (i+1) 0 + x.getD i 0) * invh2)]
  else if i = N - 1 then
    [(i-1, (1.0 - 0.5 * (x.getD (2*N-1) 0 - x.getD (2*N-2) 0)) * invh2),
     (i, (-1.0 - 0.5 * (x.getD (2*N-1) 0 - x.getD (2*N-2) 0)) * invh2),
     (N+i-1, 0.5 * (x.getD (N-1) 0 + x.getD (N-2) 0) * invh2),
     (N+i, -0.5 * (x.getD (N-1) 0 + x.getD (N-2) 0) * invh2)]
  else if i = N then
    [(N, 1.0)]
  else if i < 2*N - 1 then
    [(i-N, invlam2),
     (i-1, invh2),
     (i, -2.0 * invh2),
     (i+1, invh2)]
  else
    [(2*N-1, 1.0)]

/-- The perovskite `MyJacobian::operator()`: the loop runs `i` over
`0 ..< x.size`, pushes the running counter `c` onto `ia` before each row's
`(ja, A)` pairs, and finally pushes the total. In every branch the source
increments `c` by exactly the number of pairs it pushes, so the value of `c`
before row `i` is the total length of the earlier rows. -/
def perovJacobian (N : ℕ) (x : List ℝ) (invh2 invlam2 : ℝ) : SMH ℝ :=
  let rows := (List.range x.length).map (perovRow N x invh2 invlam2)
  { A := (rows.map (fun r => r.map Prod.snd)).flatten,
    ja := (rows.map (fun r => r.map Prod.fst)).flatten,
    ia := ((List.range x.length).map fun i => ((rows.take i).map List.length).sum)
            ++ [(rows.map List.length).sum] }

/-- The column indices pushed for row `i` (the first components of
`perovRow`), as an explicit list. -/
def jaRow (N i : ℕ) : List ℕ :=
  if i = 0 then [0, 1, N, N+1]
  else if i < N - 1 then [i-1, i, i+1, N+i-1, N+i, N+i+1]
  else if i = N - 1 then [i-1, i, N+i-1, N+i]
  else if i = N then [N]
  else if i < 2*N - 1 then [i-N, i-1, i, i+1]
  else [2*N-1]

/-- The number of entries pushed for row `i` (the source's increment of `c`
in each branch). -/
def rowLen (N i : ℕ) : ℕ :=
  if i = 0 then 4
  else if i < N - 1 then 6
  else if i = N - 1 then 4
  else if i = N then 1
  else if i < 2*N - 1 then 4
  else 1

/-- The value of the counter `c` just before row `k`, i.e. the total number of
entries pushed for rows `0 ..< k`. -/
def cBefore (N k : ℕ) : ℕ := ((List.range k).map (rowLen N)).sum

/-- Closed form for `cBefore` (valid for `2 ≤ N` and `k ≤ 2N`). -/
def iaVal (N k : ℕ) : ℕ :=
  if k = 0 then 0
  else if k ≤ N - 1 then 6 * k - 2
  else if k = N then 6 * N - 4
  else if k ≤ 2 * N - 1 then 4 * k + 2 * N - 7
  else 10 * N - 10

end Perovskite

/-! ## Model of the integration loop

The implementation of `Solver::operator()` (the BDF time integrator, Newton
iterator and step controller) is not part of the sources at hand; only its
interface (`solver.h`) is. The loop below is modelled from the specification
(§4.6, §4.7, §5): per iteration the solver either finishes (the current time
has reached `t1`), aborts (`dt` fell below `dt_min` or became nonpositive), or
makes one step attempt; an accepted step commits `(t_next, x_next)` to
history and only then invokes the observer, a rejected step halves `dt` and
retries without touching history or the observer. The Newton iteration,
residual assembly and linear solve are abstracted into the `attempt` oracle,
which receives the cached mass matrix, the current time, the clipped step and
the current state, and either produces the accepted next state or fails. -/

/-- The observable trace of one solve call: the committed history entries, the
`(x, t)` pairs passed to the observer, the mass matrix handed to each step
attempt, and the number of invocations of the mass-matrix callback. -/
structure SimTrace where
  committed : List (ℚ × List ℚ)
  observed : List (ℚ × List ℚ)
  massUsed : List (SMH ℚ)
  massCalls : ℕ
deriving DecidableEq, Repr

/-- Modelled from the spec: the integration loop of `Solver::operator()`
(spec §4.6 step 5–6, §4.7, §5). `fuel` bounds the number of iterations
(the concrete rejection budget is immaterial to the claims proved here);
the step proposed at time `t` is clipped to `min dt (t1 - t)` so that the
final step commits exactly at `t1` (spec §4.6 "Termination"). The observer
receives the committed state by reference, so its result is the state the
loop continues with. -/
def driver (attempt : SMH ℚ → ℚ → ℚ → List ℚ → Option (List ℚ))
    (obs : List ℚ → ℚ → List ℚ) (M : SMH ℚ) (t1 dtmin : ℚ) :
    ℕ → ℚ → ℚ → List ℚ → SimTrace → SimTrace × List ℚ × Bool
  | 0, _t, _dt, x, tr => (tr, x, false)
  | fuel + 1, t, dt, x, tr =>
    if t1 ≤ t then (tr, x, true)
    else if dt < dtmin ∨ dt ≤ 0 then (tr, x, false)
    else
      match attempt M t (min dt (t1 - t)) x with
      | some x1 =>
          driver attempt obs M t1 dtmin fuel (t + min dt (t1 - t)) dt
            (obs x1 (t + min dt (t1 - t)))
            { committed := tr.committed ++ [(t + min dt (t1 - t), x1)],
              observed := tr.observed ++ [(t + min dt (t1 - t), x1)],
              massUsed := tr.massUsed ++ [M],
              massCalls := tr.massCalls }
      | none =>
          driver attempt obs M t1 dtmin fuel t (dt / 2) x
            { committed := tr.committed, observed := tr.observed,
              massUsed := tr.massUsed ++ [M], massCalls := tr.massCalls }

/-- Modelled from the spec: the same loop with the observer callout removed
(spec §4.6 without step 5's observer invocation), used to compare a run with
the default observer against a run with no observer at all. -/
def driverNoObs (attempt : SMH ℚ → ℚ → ℚ → List ℚ → Option (List ℚ))
    (M : SMH ℚ) (t1 dtmin : ℚ) :
    ℕ → ℚ → ℚ → List ℚ → SimTrace → SimTrace × List ℚ × Bool
  | 0, _t, _dt, x, tr => (tr, x, false)
  | fuel + 1, t, dt, x, tr =>
    if t1 ≤ t then (tr, x, true)
    else if dt < dtmin ∨ dt ≤ 0 then (tr, x, false)
    else
      match attempt M t (min dt (t1 - t)) x with
      | some x1 =>
          driverNoObs attempt M t1 dtmin fuel (t + min dt (t1 - t)) dt x1
            { committed := tr.committed ++ [(t + min dt (t1 - t), x1)],
              observed := tr.observed ++ [(t + min dt (t1 - t), x1)],
              massUsed := tr.massUsed ++ [M],
              massCalls := tr.massCalls }
      | none =>
          driverNoObs attempt M t1 dtmin fuel t (dt / 2) x
            { committed := tr.committed, observed := tr.observed,
              massUsed := tr.massUsed ++ [M], massCalls := tr.massCalls }

namespace Solver

/-- `Solver::observer` from `solver.h`: the default virtual observer receives
the solution vector (by reference) and the time and does nothing
(`return;  // It does nothing by deafult`). Modelled as returning the vector
unchanged. -/
def observer (x : List ℚ) (_t : ℚ) : List ℚ := x

end Solver

/-- Modelled from the spec: the solver-options record (`solver_options.h` is
not among the sources at hand). The spec's table gives `t0` "Start time
(default 0)", matching the comment on `Solver::operator()` in `solver.h`
("Parameter t0 can be overriden in the solver options (t0 = 0 by default)").
Only the fields the modelled loop consumes appear; `t0` is the only one whose
default the spec states, so the others have no default here. -/
structure SolverOptions where
  t0 : ℚ := 0
  dt_init : ℚ
  dt_min : ℚ
deriving DecidableEq, Repr

/-- Modelled from the spec: `Solver::operator()(x, t1)`. The call receives
only the state vector and the end time `t1`; the start time comes from the
options record. The mass matrix is produced once by the callback at the start
of the solve (spec §3 "Produced once by the collaborator and cached by the
core for the lifetime of a solve", §6 "Called once; result is cached") and the
cached matrix is handed to every subsequent step attempt. -/
def solveCall (attempt : SMH ℚ → ℚ → ℚ → List ℚ → Option (List ℚ))
    (obs : List ℚ → ℚ → List ℚ) (massCB : SMH ℚ → SMH ℚ)
    (opt : SolverOptions) (fuel : ℕ) (x : List ℚ) (t1 : ℚ) :
    SimTrace × List ℚ × Bool :=
  driver attempt obs (massCB (SMH.mk [] [] [])) t1 opt.dt_min fuel
    opt.t0 opt.dt_init x (SimTrace.mk [] [] [] 1)

/-- The persistent data members of `Solver` from `solver.h`: the internal
time-iteration counter `m_steps` and the solver-calls counter `m_calls`. The
class additionally stores references to the user-owned collaborators
(`m_rhs`, `m_jac`, `m_mass`, `m_opt`) but no state vector. -/
structure SolverPersist where
  m_steps : ℕ
  m_calls : ℕ
deriving DecidableEq, Repr

/-- Modelled from the spec and `solver.h`: one full solve call together with
its effect on the caller and on the solver's persistent state. The caller's
vector is replaced by the vector the integration loop ends with, and the
persistent state advances its two counters; `SolverPersist` has no field that
could retain the borrowed vector. -/
def solveCallWithPersist (attempt : SMH ℚ → ℚ → ℚ → List ℚ → Option (List ℚ))
    (obs : List ℚ → ℚ → List ℚ) (massCB : SMH ℚ → SMH ℚ)
    (opt : SolverOptions) (fuel : ℕ) (p : SolverPersist)
    (x : List ℚ) (t1 : ℚ) : SolverPersist × List ℚ :=
  let r := solveCall attempt obs massCB opt fuel x t1
  (SolverPersist.mk (p.m_steps + r.1.committed.length) (p.m_calls + 1), r.2.1)

/-! ## Helper lemmas -/

theorem hasDerivAt_quadratic (a b c s : ℝ) :
    HasDerivAt (fun u : ℝ => a * u + b * (u * u) + c) (a + b * (2 * s)) s := by
  have h1 : HasDerivAt (fun u : ℝ => u) 1 s := hasDerivAt_id s
  have h3 := (h1.const_mul a).add (((h1.mul h1).const_mul b).add_const c)
  have e : (fun x : ℝ => a * x + (b * (x * x) + c))
      = fun u : ℝ => a * u + b * (u * u) + c := by
    funext u; ring
  have ev : a * 1 + b * (1 * s + s * 1) = a + b * (2 * s) := by ring
  rw [e, ev] at h3
  exact h3

theorem hasDerivAt_shape (a b c d s : ℝ)
    (f : ℝ → ℝ) (hf : ∀ u, f u = a * u + b * (u * u) + c)
    (hd : d = a + b * (2 * s)) : HasDerivAt f d s := by
  have e : f = fun u : ℝ => a * u + b * (u * u) + c := funext hf
  rw [e, hd]; exact hasDerivAt_quadratic a b c s

/-! ## Claims about the Robertson example -/

/-- **C4.** For every state vector `x` of length 3 and every time `t`, the
matrix produced by the Robertson example's analytic Jacobian (`MyJacobian`)
equals the matrix of partial derivatives `∂f/∂x` of the Robertson example's
residual function (`MyRHS`) evaluated at `(x, t)`, entry for entry: the
`(i, j)` entry of the CSR matrix is the derivative of component `i` of the
RHS with respect to component `j` of the state. -/
theorem C4_robertson_jacobian_is_rhs_derivative :
    ∀ (x : Fin 3 → ℝ) (t : ℝ) (i j : Fin 3),
      HasDerivAt (fun s => Robertson.MyRHS (Function.update x j s) t i)
        (csrEntry (Robertson.MyJacobian x t) (i : ℕ) (j : ℕ)) (x j) := by
  intro x t i j
  fin_cases i <;> fin_cases j
  · exact hasDerivAt_shape (-0.04) 0 (1.0e4 * x 1 * x 2) _ _ _
      (fun u => by simp [Robertson.MyRHS, Function.update]; try ring)
      (by simp [csrEntry, Robertson.MyJacobian, List.range, List.range.loop]; try ring)
  · exact hasDerivAt_shape (1.0e4 * x 2) 0 (-0.04 * x 0) _ _ _
      (fun u => by simp [Robertson.MyRHS, Function.update]; try ring)
      (by simp [csrEntry, Robertson.MyJacobian, List.range, List.range.loop]; try ring)
  · exact hasDerivAt_shape (1.0e4 * x 1) 0 (-0.04 * x 0) _ _ _
      (fun u => by simp [Robertson.MyRHS, Function.update]; try ring)
      (by simp [csrEntry, Robertson.MyJacobian, List.range, List.range.loop]; try ring)
  · exact hasDerivAt_shape 0.04 0 (-1.0e4 * x 1 * x 2 - 3.0e7 * x 1 * x 1) _ _ _
      (fun u => by simp [Robertson.MyRHS, Function.update]; try ring)
      (by simp [csrEntry, Robertson.MyJacobian, List.range, List.range.loop]; try ring)
  · exact hasDerivAt_shape (-1.0e4 * x 2) (-3.0e7) (0.04 * x 0) _ _ _
      (fun u => by simp [Robertson.MyRHS, Function.update]; try ring)
      (by simp [csrEntry, Robertson.MyJacobian, List.range, List.range.loop]; try ring)
  · exact hasDerivAt_shape (-1.0e4 * x 1) 0 (0.04 * x 0 - 3.0e7 * x 1 * x 1) _ _ _
      (fun u => by simp [Robertson.MyRHS, Function.update]; try ring)
      (by simp [csrEntry, Robertson.MyJacobian, List.range, List.range.loop]; try ring)
  · exact hasDerivAt_shape 1 0 (x 1 + x 2 - 1) _ _ _
      (fun u => by simp [Robertson.MyRHS, Function.update]; try ring)
      (by simp [csrEntry, Robertson.MyJacobian, List.range, List.range.loop]; try ring)
  · exact hasDerivAt_shape 1 0 (x 0 + x 2 - 1) _ _ _
      (fun u => by simp [Robertson.MyRHS, Function.update]; try ring)
      (by simp [csrEntry, Robertson.MyJacobian, List.range, List.range.loop]; try ring)
  · exact hasDerivAt_shape 1 0 (x 0 + x 1 - 1) _ _ _
      (fun u => by simp [Robertson.MyRHS, Function.update]; try ring)
      (by simp [csrEntry, Robertson.MyJacobian, List.range, List.range.loop]; try ring)

/-- **C5.** The Robertson example encodes exactly the S1 scenario: `MyRHS`
computes `f = (−0.04·x₁ + 1e4·x₂·x₃, 0.04·x₁ − 1e4·x₂·x₃ − 3e7·x₂²,
x₁ + x₂ + x₃ − 1)`, and `MyMassMatrix` fills a CSR matrix equal to
`diag(1, 1, 0)` whose explicit zero on the third diagonal is retained and
counted in `nnz` (`nnz = 3`, `ia = [0, 1, 2, 3]`). -/
theorem C5_robertson_encodes_S1 :
    (∀ (x : Fin 3 → ℝ) (t : ℝ),
        Robertson.MyRHS x t 0 = -0.04 * x 0 + 1.0e4 * x 1 * x 2 ∧
        Robertson.MyRHS x t 1 = 0.04 * x 0 - 1.0e4 * x 1 * x 2 - 3.0e7 * (x 1) ^ 2 ∧
        Robertson.MyRHS x t 2 = x 0 + x 1 + x 2 - 1) ∧
    (∀ i j : Fin 3,
        csrEntry Robertson.MyMassMatrix (i : ℕ) (j : ℕ)
          = if i = j ∧ (i : ℕ) < 2 then 1 else 0) ∧
    Robertson.MyMassMatrix.A = [1, 1, 0] ∧
    Robertson.MyMassMatrix.A.length = 3 ∧
    Robertson.MyMassMatrix.ja = [0, 1, 2] ∧
    Robertson.MyMassMatrix.ia = [0, 1, 2, 3] := by
  refine ⟨fun x t => ⟨by simp [Robertson.MyRHS], ?_, by simp [Robertson.MyRHS]⟩,
    ?_, rfl, rfl, rfl, rfl⟩
  · simp [Robertson.MyRHS]; ring
  · intro i j
    fin_cases i <;> fin_cases j <;>
      norm_num [csrEntry, Robertson.MyMassMatrix, List.range, List.range.loop,
        Fin.ext_iff]

/-! ## Claim C2: exit codes -/

/-- **C2 (counterexample).** The claim that every solve call surfaces an exit
code to the caller is false in this code: `Solver::operator()` is declared
`void` in `solver.h`, so its return (`SolverCallReturn = Unit`) cannot encode
a distinction between `0` (success) and any nonzero failure value. -/
theorem C2_counterexample_solve_returns_void :
    ¬ ∃ code : SolverCallReturn → ℤ,
        ∃ u v : SolverCallReturn, code u = 0 ∧ code v ≠ 0 := by
  rintro ⟨code, u, v, hu, hv⟩
  exact hv ((congrArg code (Subsingleton.elim v u)).trans hu)

/-- **C2 (amended).** The solve call itself returns `void` and surfaces no
exit code; in the Robertson example it is `main` that computes the exit
status: it returns `0` exactly when the total relative error is at most 1%
and the conservation deviation is at most `1e-14` (double-precision branch),
and `1` otherwise. -/
theorem C2_amended_exit_code_from_main :
    (∀ u v : SolverCallReturn, u = v) ∧
    ∀ result conservation : ℚ,
      (Robertson.mainReturn result conservation = 0 ↔
        result ≤ 1 ∧ conservation ≤ 1e-14) ∧
      (Robertson.mainReturn result conservation = 0 ∨
        Robertson.mainReturn result conservation = 1) := by
  refine ⟨fun u v => Subsingleton.elim u v, fun r c => ⟨?_, ?_⟩⟩
  · have key : Robertson.check_result r c = true ↔ 1 < r ∨ 1e-14 < c := by
      simp only [Robertson.check_result, Bool.or_eq_true, decide_eq_true_eq]
      norm_num
    rw [Robertson.mainReturn]
    split_ifs with hcr
    · rw [key] at hcr
      simp only [one_ne_zero, false_iff]
      intro hand
      rcases hcr with h | h
      · linarith [hand.1]
      · linarith [hand.2]
    · rw [key] at hcr
      push_neg at hcr
      simp only [true_iff]
      exact hcr
  · rw [Robertson.mainReturn]
    split_ifs <;> simp

/-! ## Invariants of the modelled integration loop -/

theorem driver_observed_eq_committed
    (attempt : SMH ℚ → ℚ → ℚ → List ℚ → Option (List ℚ))
    (obs : List ℚ → ℚ → List ℚ) (M : SMH ℚ) (t1 dtmin : ℚ) :
    ∀ (fuel : ℕ) (t dt : ℚ) (x : List ℚ) (tr : SimTrace),
      tr.observed = tr.committed →
      (driver attempt obs M t1 dtmin fuel t dt x tr).1.observed
        = (driver attempt obs M t1 dtmin fuel t dt x tr).1.committed := by
  intro fuel
  induction fuel with
  | zero => intro t dt x tr h; simpa [driver] using h
  | succ n ih =>
    intro t dt x tr h
    rw [driver]
    split_ifs with h1 h2
    · exact h
    · exact h
    · cases hA : attempt M t (min dt (t1 - t)) x with
      | some x1 =>
        simp only [hA]
        exact ih _ _ _ _ (by simp [h])
      | none =>
        simp only [hA]
        exact ih _ _ _ _ h

theorem driver_time_bounds
    (attempt : SMH ℚ → ℚ → ℚ → List ℚ → Option (List ℚ))
    (obs : List ℚ → ℚ → List ℚ) (M : SMH ℚ) (t1 dtmin low : ℚ) :
    ∀ (fuel : ℕ) (t dt : ℚ) (x : List ℚ) (tr : SimTrace),
      low ≤ t →
      (∀ p ∈ tr.committed, p.1 ≤ t) →
      List.Chain' (· < ·) (tr.committed.map Prod.fst) →
      (∀ p ∈ tr.committed, low < p.1 ∧ p.1 ≤ t1) →
      List.Chain' (· < ·)
          ((driver attempt obs M t1 dtmin fuel t dt x tr).1.committed.map Prod.fst) ∧
        ∀ p ∈ (driver attempt obs M t1 dtmin fuel t dt x tr).1.committed,
          low < p.1 ∧ p.1 ≤ t1 := by
  intro fuel
  induction fuel with
  | zero => intro t dt x tr _ _ hch hb; exact ⟨hch, hb⟩
  | succ n ih =>
    intro t dt x tr hlt hle hch hb
    rw [driver]
    split_ifs with h1 h2
    · exact ⟨hch, hb⟩
    · exact ⟨hch, hb⟩
    · push_neg at h1 h2
      cases hA : attempt M t (min dt (t1 - t)) x with
      | none =>
        simp only [hA]
        exact ih t (dt / 2) x _ hlt hle hch hb
      | some x1 =>
        simp only [hA]
        have hstep : 0 < min dt (t1 - t) := lt_min h2.2 (by linarith)
        have htn : t < t + min dt (t1 - t) := by linarith
        have htn1 : t + min dt (t1 - t) ≤ t1 := by
          have := min_le_right dt (t1 - t); linarith
        apply ih (t + min dt (t1 - t)) dt (obs x1 (t + min dt (t1 - t)))
        · linarith
        · intro p hp
          simp only [List.mem_append, List.mem_singleton] at hp
          rcases hp with hp | hp
          · exact le_of_lt (lt_of_le_of_lt (hle p hp) htn)
          · rw [hp]
        · simp only [List.map_append]
          rw [List.chain'_append]
          refine ⟨hch, List.chain'_singleton _, ?_⟩
          intro a ha b hb'
          simp only [List.map_cons, List.map_nil, List.head?_cons,
            Option.mem_def, Option.some.injEq] at hb'
          subst hb'
          have hmem : a ∈ tr.committed.map Prod.fst := List.mem_of_mem_getLast? ha
          obtain ⟨p, hp, hpa⟩ := List.mem_map.mp hmem
          subst hpa
          exact lt_of_le_of_lt (hle p hp) htn
        · intro p hp
          simp only [List.mem_append, List.mem_singleton] at hp
          rcases hp with hp | hp
          · exact hb p hp
          · rw [hp]; exact ⟨lt_of_le_of_lt hlt htn, htn1⟩

theorem driver_mass_inv
    (attempt : SMH ℚ → ℚ → ℚ → List ℚ → Option (List ℚ))
    (obs : List ℚ → ℚ → List ℚ) (M : SMH ℚ) (t1 dtmin : ℚ) :
    ∀ (fuel : ℕ) (t dt : ℚ) (x : List ℚ) (tr : SimTrace),
      (driver attempt obs M t1 dtmin fuel t dt x tr).1.massCalls = tr.massCalls ∧
      ∀ m ∈ (driver attempt obs M t1 dtmin fuel t dt x tr).1.massUsed,
        m ∈ tr.massUsed ∨ m = M := by
  intro fuel
  induction fuel with
  | zero =>
    intro t dt x tr
    exact ⟨rfl, fun m hm => Or.inl hm⟩
  | succ n ih =>
    intro t dt x tr
    rw [driver]
    split_ifs with h1 h2
    · exact ⟨rfl, fun m hm => Or.inl hm⟩
    · exact ⟨rfl, fun m hm => Or.inl hm⟩
    · cases hA : attempt M t (min dt (t1 - t)) x with
      | some x1 =>
        simp only [hA]
        refine ⟨(ih _ _ _ _).1, fun m hm => ?_⟩
        rcases (ih _ _ _ _).2 m hm with hm' | hm'
        · simp only [List.mem_append, List.mem_singleton] at hm'
          rcases hm' with hm' | hm'
          · exact Or.inl hm'
          · exact Or.inr hm'
        · exact Or.inr hm'
      | none =>
        simp only [hA]
        refine ⟨(ih _ _ _ _).1, fun m hm => ?_⟩
        rcases (ih _ _ _ _).2 m hm with hm' | hm'
        · simp only [List.mem_append, List.mem_singleton] at hm'
          rcases hm' with hm' | hm'
          · exact Or.inl hm'
          · exact Or.inr hm'
        · exact Or.inr hm'

theorem driver_final_state
    (attempt : SMH ℚ → ℚ → ℚ → List ℚ → Option (List ℚ))
    (obs : List ℚ → ℚ → List ℚ) (M : SMH ℚ) (t1 dtmin : ℚ)
    (hobs : ∀ v s, obs v s = v) :
    ∀ (fuel : ℕ) (t dt : ℚ) (x : List ℚ) (tr : SimTrace),
      (∀ p ∈ tr.committed, p.1 ≤ t1) →
      (tr.committed = [] ∨ tr.committed.getLast? = some (t, x)) →
      (driver attempt obs M t1 dtmin fuel t dt x tr).2.2 = true →
      (driver attempt obs M t1 dtmin fuel t dt x tr).1.committed = [] ∨
        (driver attempt obs M t1 dtmin fuel t dt x tr).1.committed.getLast?
          = some (t1, (driver attempt obs M t1 dtmin fuel t dt x tr).2.1) := by
  intro fuel
  induction fuel with
  | zero =>
    intro t dt x tr _ _ hflag
    exact absurd hflag (by rw [driver]; simp)
  | succ n ih =>
    intro t dt x tr hb hlast hflag
    rw [driver] at hflag ⊢
    by_cases h1 : t1 ≤ t
    · rw [if_pos h1] at hflag ⊢
      rcases hlast with hl | hl
      · exact Or.inl hl
      · right
        show tr.committed.getLast? = some (t1, x)
        have hmem : (t, x) ∈ tr.committed := List.mem_of_mem_getLast? hl
        have heq : t = t1 := le_antisymm (hb (t, x) hmem) h1
        rw [hl, heq]
    · rw [if_neg h1] at hflag ⊢
      by_cases h2 : dt < dtmin ∨ dt ≤ 0
      · rw [if_pos h2] at hflag
        exact absurd hflag (by simp)
      · rw [if_neg h2] at hflag ⊢
        cases hA : attempt M t (min dt (t1 - t)) x with
        | some x1 =>
          rw [hA] at hflag
          push_neg at h1 h2
          have htn1 : t + min dt (t1 - t) ≤ t1 := by
            have := min_le_right dt (t1 - t); linarith
          refine ih (t + min dt (t1 - t)) dt (obs x1 (t + min dt (t1 - t))) _ ?_ ?_ hflag
          · intro p hp
            simp only [List.mem_append, List.mem_singleton] at hp
            rcases hp with hp | hp
            · exact hb p hp
            · rw [hp]; exact htn1
          · right
            rw [hobs x1 (t + min dt (t1 - t))]
            exact List.getLast?_concat _
        | none =>
          rw [hA] at hflag
          exact ih _ _ _ _ hb hlast hflag

/-! ## Claims about the solve loop -/

/-- **C1.** For every solve call, the observer callback is invoked exactly
once per accepted step, only after that step has been accepted and committed
to history, with strictly increasing time arguments across successive
invocations; a rejected step never triggers an observer invocation. In the
modelled loop: the observer log always equals the committed history (one
observation per accepted step, none for rejected attempts, each carrying the
committed pair), and the observation times are strictly increasing and lie in
`(t0, t1]`. -/
theorem C1_observer_once_per_accepted_step :
    ∀ (attempt : SMH ℚ → ℚ → ℚ → List ℚ → Option (List ℚ))
      (obs : List ℚ → ℚ → List ℚ) (M : SMH ℚ) (t1 dtmin : ℚ)
      (fuel : ℕ) (t0 dt0 : ℚ) (x0 : List ℚ),
      (driver attempt obs M t1 dtmin fuel t0 dt0 x0 (SimTrace.mk [] [] [] 0)).1.observed
          = (driver attempt obs M t1 dtmin fuel t0 dt0 x0 (SimTrace.mk [] [] [] 0)).1.committed ∧
        List.Chain' (· < ·)
          ((driver attempt obs M t1 dtmin fuel t0 dt0 x0 (SimTrace.mk [] [] [] 0)).1.observed.map
            Prod.fst) ∧
        ∀ p ∈ (driver attempt obs M t1 dtmin fuel t0 dt0 x0 (SimTrace.mk [] [] [] 0)).1.observed,
          t0 < p.1 ∧ p.1 ≤ t1 := by
  intro attempt obs M t1 dtmin fuel t0 dt0 x0
  have h1 := driver_observed_eq_committed attempt obs M t1 dtmin fuel t0 dt0 x0
    (SimTrace.mk [] [] [] 0) rfl
  have h2 := driver_time_bounds attempt obs M t1 dtmin t0 fuel t0 dt0 x0
    (SimTrace.mk [] [] [] 0) le_rfl (by intro p hp; simp at hp)
    (by simp) (by intro p hp; simp at hp)
  refine ⟨h1, ?_, ?_⟩
  · rw [h1]; exact h2.1
  · rw [h1]; exact h2.2

/-- Witness for `C1_observer_once_per_accepted_step`: a concrete two-step run
(one accepted step from `t = 0` to `t1 = 1`). -/
theorem C1_witness : (0 : ℚ) < 1 ∧ (1 : ℚ) ≤ 1 := by
  have h := C1_observer_once_per_accepted_step (fun _ _ _ v => some v)
    (fun v _ => v) (SMH.mk [] [] []) 1 0 2 0 1 []
  exact h.2.2 (1, []) (by norm_num [driver])

/-- **C10.** The base `Solver`'s default observer is a pure no-op: for every
state vector `x` and time `t` it returns without modifying `x` or any solver
state, so a user who does not override the observer gets integration
behaviour identical to having no observer at all: the loop with the default
observer is equal, as a function, to the loop with the observer callout
removed. -/
theorem C10_default_observer_noop :
    (∀ (x : List ℚ) (t : ℚ), Solver.observer x t = x) ∧
    ∀ (attempt : SMH ℚ → ℚ → ℚ → List ℚ → Option (List ℚ)) (M : SMH ℚ)
      (t1 dtmin : ℚ) (fuel : ℕ) (t dt : ℚ) (x : List ℚ) (tr : SimTrace),
      driver attempt Solver.observer M t1 dtmin fuel t dt x tr
        = driverNoObs attempt M t1 dtmin fuel t dt x tr := by
  refine ⟨fun x t => rfl, ?_⟩
  intro attempt M t1 dtmin fuel
  induction fuel with
  | zero => intro t dt x tr; rfl
  | succ n ih =>
    intro t dt x tr
    rw [driver, driverNoObs]
    split_ifs with h1 h2
    · rfl
    · rfl
    · cases hA : attempt M t (min dt (t1 - t)) x with
      | some x1 => simp only [hA]; exact ih _ _ _ _
      | none => simp only [hA]; exact ih _ _ _ _

/-- **C3.** For every state vector `x` and end time `t1`, the solve call
overwrites the caller-owned vector in place with the computed solution at
`t1` (when the solve succeeds having accepted at least one step, the vector
returned to the caller is exactly the state committed at time `t1`), and the
solver does not retain the vector afterwards: its persistent state after the
call consists of the two advanced counters only (`SolverPersist` has no
vector-valued field). -/
theorem C3_solve_overwrites_in_place :
    ∀ (attempt : SMH ℚ → ℚ → ℚ → List ℚ → Option (List ℚ))
      (massCB : SMH ℚ → SMH ℚ) (opt : SolverOptions) (fuel : ℕ)
      (p : SolverPersist) (x : List ℚ) (t1 : ℚ),
      ((solveCall attempt Solver.observer massCB opt fuel x t1).2.2 = true →
        (solveCall attempt Solver.observer massCB opt fuel x t1).1.committed ≠ [] →
        (solveCall attempt Solver.observer massCB opt fuel x t1).1.committed.getLast?
          = some (t1,
              (solveCallWithPersist attempt Solver.observer massCB opt fuel p x t1).2)) ∧
      (solveCallWithPersist attempt Solver.observer massCB opt fuel p x t1).1
        = SolverPersist.mk
            (p.m_steps +
              (solveCall attempt Solver.observer massCB opt fuel x t1).1.committed.length)
            (p.m_calls + 1) ∧
      (solveCallWithPersist attempt Solver.observer massCB opt fuel p x t1).2
        = (solveCall attempt Solver.observer massCB opt fuel x t1).2.1 := by
  intro attempt massCB opt fuel p x t1
  refine ⟨?_, rfl, rfl⟩
  intro hflag hne
  have h := driver_final_state attempt Solver.observer (massCB (SMH.mk [] [] []))
    t1 opt.dt_min (fun v s => rfl) fuel opt.t0 opt.dt_init x (SimTrace.mk [] [] [] 1)
    (by intro q hq; simp at hq) (Or.inl rfl) hflag
  exact h.resolve_left hne

/-- Witness for `C3_solve_overwrites_in_place`: a concrete successful solve
(one accepted step from `t = 0` to `t1 = 1` on the vector `[5]`). -/
theorem C3_witness :
    (solveCall (fun _ _ _ v => some v) Solver.observer id
        (SolverOptions.mk 0 1 0) 2 [5] 1).1.committed.getLast?
      = some (1,
          (solveCallWithPersist (fun _ _ _ v => some v) Solver.observer id
            (SolverOptions.mk 0 1 0) 2 (SolverPersist.mk 0 0) [5] 1).2) := by
  have h := C3_solve_overwrites_in_place (fun _ _ _ v => some v) id
    (SolverOptions.mk 0 1 0) 2 (SolverPersist.mk 0 0) [5] 1
  exact h.1 (by norm_num [solveCall, driver]) (by norm_num [solveCall, driver])

/-- **C7.** The mass matrix is time- and state-independent (the modelled
callback has type `SMH ℚ → SMH ℚ`: it receives only the CSR holder to fill,
no state vector and no time argument, exactly as the pure-virtual
`MassMatrix::operator()(sparse_matrix_holder &M)` in `mass_matrix.h`), the
callback is invoked exactly once per solve, and every step attempt of the
solve is handed that one cached matrix. -/
theorem C7_mass_matrix_once_and_cached :
    ∀ (attempt : SMH ℚ → ℚ → ℚ → List ℚ → Option (List ℚ))
      (obs : List ℚ → ℚ → List ℚ) (massCB : SMH ℚ → SMH ℚ)
      (opt : SolverOptions) (fuel : ℕ) (x : List ℚ) (t1 : ℚ),
      (solveCall attempt obs massCB opt fuel x t1).1.massCalls = 1 ∧
      ∀ m ∈ (solveCall attempt obs massCB opt fuel x t1).1.massUsed,
        m = massCB (SMH.mk [] [] []) := by
  intro attempt obs massCB opt fuel x t1
  have h := driver_mass_inv attempt obs (massCB (SMH.mk [] [] [])) t1 opt.dt_min
    fuel opt.t0 opt.dt_init x (SimTrace.mk [] [] [] 1)
  refine ⟨h.1, fun m hm => ?_⟩
  rcases h.2 m hm with hm' | hm'
  · simp at hm'
  · exact hm'

/-- Witness for `C7_mass_matrix_once_and_cached`: a concrete solve whose one
accepted step used the cached (empty) mass matrix. -/
theorem C7_witness :
    (solveCall (fun _ _ _ v => some v) Solver.observer id
        (SolverOptions.mk 0 1 0) 2 [] 1).1.massCalls = 1 ∧
      SMH.mk ([] : List ℚ) [] [] = id (SMH.mk ([] : List ℚ) [] []) := by
  have h := C7_mass_matrix_once_and_cached (fun _ _ _ v => some v)
    Solver.observer id (SolverOptions.mk 0 1 0) 2 [] 1
  exact ⟨h.1, h.2 (SMH.mk [] [] []) (by norm_num [solveCall, driver])⟩

/-- **C8.** For every solve call, the integration start time `t0` defaults to
`0` (constructing the options record without touching `t0` leaves it `0`) and
is taken from the solver-options record: every committed step time of a solve
lies in the interval `(opt.t0, t1]`. The solve call itself
(`solveCall`, modelling `Solver::operator()`) takes only the state vector and
the end time `t1` as per-call data. -/
theorem C8_start_time_from_options :
    (∀ a b : ℚ, ({ dt_init := a, dt_min := b } : SolverOptions).t0 = 0) ∧
    ∀ (attempt : SMH ℚ → ℚ → ℚ → List ℚ → Option (List ℚ))
      (obs : List ℚ → ℚ → List ℚ) (massCB : SMH ℚ → SMH ℚ)
      (opt : SolverOptions) (fuel : ℕ) (x : List ℚ) (t1 : ℚ),
      ∀ p ∈ (solveCall attempt obs massCB opt fuel x t1).1.committed,
        opt.t0 < p.1 ∧ p.1 ≤ t1 := by
  refine ⟨fun a b => rfl, ?_⟩
  intro attempt obs massCB opt fuel x t1
  have h := driver_time_bounds attempt obs (massCB (SMH.mk [] [] [])) t1
    opt.dt_min opt.t0 fuel opt.t0 opt.dt_init x (SimTrace.mk [] [] [] 1)
    le_rfl (by intro q hq; simp at hq) (by simp) (by intro q hq; simp at hq)
  exact h.2

/-- Witness for `C8_start_time_from_options`: the committed step of a
concrete solve lies in `(t0, t1] = (0, 1]`. -/
theorem C8_witness : (SolverOptions.mk 0 1 0).t0 < 1 ∧ (1 : ℚ) ≤ 1 := by
  have h := C8_start_time_from_options
  exact h.2 (fun _ _ _ v => some v) Solver.observer id (SolverOptions.mk 0 1 0)
    2 [5] 1 (1, [5]) (by norm_num [solveCall, driver])

/-! ## Claim C9: well-formedness of the perovskite Jacobian CSR structure -/

namespace Perovskite

theorem perovRow_map_fst (N : ℕ) (x : List ℝ) (a b : ℝ) (i : ℕ) :
    (perovRow N x a b i).map Prod.fst = jaRow N i := by
  unfold perovRow jaRow
  split_ifs <;> rfl

theorem jaRow_length (N i : ℕ) : (jaRow N i).length = rowLen N i := by
  unfold jaRow rowLen
  split_ifs <;> rfl

theorem perovRow_length (N : ℕ) (x : List ℝ) (a b : ℝ) (i : ℕ) :
    (perovRow N x a b i).length = rowLen N i := by
  rw [← jaRow_length, ← perovRow_map_fst N x a b i, List.length_map]

theorem cBefore_succ (N k : ℕ) : cBefore N (k+1) = cBefore N k + rowLen N k := by
  unfold cBefore
  rw [List.range_succ, List.map_append, List.sum_append]
  simp

theorem cBefore_eq_iaVal (N : ℕ) (hN : 2 ≤ N) :
    ∀ k, k ≤ 2 * N → cBefore N k = iaVal N k := by
  intro k
  induction k with
  | zero => intro _; simp [cBefore, iaVal]
  | succ m ih =>
    intro hm
    rw [cBefore_succ, ih (by omega)]
    simp only [iaVal, rowLen]
    split_ifs <;> first | omega | exact False.elim (by assumption)

theorem flatten_slice {α : Type} :
    ∀ (L : List (List α)) (i : ℕ), i < L.length →
      (L.flatten.drop (((L.take i).map List.length).sum)).take (L.getD i []).length
        = L.getD i [] := by
  intro L
  induction L with
  | nil => intro i h; simp at h
  | cons r rs ih =>
    intro i h
    cases i with
    | zero =>
      simp only [List.take_zero, List.map_nil, List.sum_nil, List.drop_zero,
        List.getD_cons_zero, List.flatten_cons]
      exact List.take_left r rs.flatten
    | succ n =>
      have h2 : n < rs.length := by simpa using h
      simp only [List.take_succ_cons, List.map_cons, List.sum_cons,
        List.flatten_cons, List.getD_cons_succ]
      rw [List.drop_append]
      exact ih n h2

theorem getD_map_range {α : Type} (f : ℕ → α) (d : α) (n k : ℕ) (hk : k < n) :
    ((List.range n).map f).getD k d = f k := by
  rw [List.getD_eq_getElem?_getD]
  simp [List.getElem?_map, List.getElem?_range, hk]

theorem take_map_length_sum (N : ℕ) (x : List ℝ) (a b : ℝ) (n i : ℕ) (hi : i ≤ n) :
    ((((List.range n).map (perovRow N x a b)).take i).map List.length).sum
      = cBefore N i := by
  rw [← List.map_take, List.take_range, min_eq_left hi, List.map_map]
  unfold cBefore
  congr 1
  apply List.map_congr_left
  intro j _
  exact perovRow_length N x a b j

theorem perovJacobian_ia (N : ℕ) (x : List ℝ) (a b : ℝ) :
    (perovJacobian N x a b).ia = (List.range (x.length + 1)).map (cBefore N) := by
  show ((List.range x.length).map fun i =>
        ((((List.range x.length).map (perovRow N x a b)).take i).map List.length).sum)
      ++ [((((List.range x.length).map (perovRow N x a b)).map List.length)).sum]
    = (List.range (x.length + 1)).map (cBefore N)
  rw [List.range_succ, List.map_append]
  congr 1
  · apply List.map_congr_left
    intro i hi
    exact take_map_length_sum N x a b _ i (le_of_lt (List.mem_range.mp hi))
  · simp only [List.map_cons, List.map_nil]
    congr 2
    rw [List.map_map]
    apply List.map_congr_left
    intro j _
    exact perovRow_length N x a b j

theorem perovJacobian_ja (N : ℕ) (x : List ℝ) (a b : ℝ) :
    (perovJacobian N x a b).ja = ((List.range x.length).map (jaRow N)).flatten := by
  show ((((List.range x.length).map (perovRow N x a b)).map
      fun r => r.map Prod.fst)).flatten = _
  rw [List.map_map]
  congr 1
  apply List.map_congr_left
  intro i _
  exact perovRow_map_fst N x a b i

theorem perovJacobian_A_length (N : ℕ) (x : List ℝ) (a b : ℝ) :
    (perovJacobian N x a b).A.length = cBefore N x.length := by
  show ((((List.range x.length).map (perovRow N x a b)).map
      fun r => r.map Prod.snd)).flatten.length = _
  rw [List.length_flatten, List.map_map, List.map_map]
  unfold cBefore
  congr 1
  apply List.map_congr_left
  intro j _
  simp only [Function.comp]
  rw [List.length_map]
  exact perovRow_length N x a b j

theorem jaRows_flatten_length (N n : ℕ) :
    (((List.range n).map (jaRow N)).flatten).length = cBefore N n := by
  rw [List.length_flatten, List.map_map]
  unfold cBefore
  congr 1
  apply List.map_congr_left
  intro j _
  exact jaRow_length N j

theorem jaRows_take_sum (N n i : ℕ) (hi : i ≤ n) :
    ((((List.range n).map (jaRow N)).take i).map List.length).sum = cBefore N i := by
  rw [← List.map_take, List.take_range, min_eq_left hi, List.map_map]
  unfold cBefore
  congr 1
  apply List.map_congr_left
  intro j _
  exact jaRow_length N j

theorem iaVal_last (N : ℕ) (hN : 2 ≤ N) : iaVal N (2 * N) = 10 * N - 10 := by
  unfold iaVal
  split_ifs <;> omega

theorem jaRow_chain (N i : ℕ) (hN : 2 ≤ N) (hi : i < 2 * N) :
    List.Chain' (· < ·) (jaRow N i) := by
  unfold jaRow
  split_ifs <;>
    simp only [List.chain'_cons, List.chain'_singleton, and_true] <;>
    omega

theorem jaRow_mem_lt (N i c : ℕ) (hN : 2 ≤ N) (hi : i < 2 * N)
    (hc : c ∈ jaRow N i) : c < 2 * N := by
  unfold jaRow at hc
  split_ifs at hc <;> simp at hc <;> omega

end Perovskite

/-- **C9.** For every integer `N ≥ 2` and every state vector `x` of length
`2N`, the perovskite analytic Jacobian fills the holder with a well-formed CSR
matrix: `ia` has length `2N+1` and is non-decreasing with `ia[0] = 0` and
`ia[2N] = 10N − 10`; `A` and `ja` both have length `10N − 10`; every column
index lies in `[0, 2N)`; and within each row the column indices are strictly
increasing (hence duplicate-free). -/
theorem C9_perovskite_jacobian_wellformed (N : ℕ) (hN : 2 ≤ N) (x : List ℝ)
    (hx : x.length = 2 * N) (invh2 invlam2 : ℝ) :
    (Perovskite.perovJacobian N x invh2 invlam2).ia.length = 2 * N + 1 ∧
    (Perovskite.perovJacobian N x invh2 invlam2).ia.getD 0 0 = 0 ∧
    (Perovskite.perovJacobian N x invh2 invlam2).ia.getD (2 * N) 0 = 10 * N - 10 ∧
    (Perovskite.perovJacobian N x invh2 invlam2).A.length = 10 * N - 10 ∧
    (Perovskite.perovJacobian N x invh2 invlam2).ja.length = 10 * N - 10 ∧
    List.Chain' (· ≤ ·) (Perovskite.perovJacobian N x invh2 invlam2).ia ∧
    (∀ c ∈ (Perovskite.perovJacobian N x invh2 invlam2).ja, c < 2 * N) ∧
    ∀ i, i < 2 * N →
      List.Chain' (· < ·)
        (((Perovskite.perovJacobian N x invh2 invlam2).ja.drop
            ((Perovskite.perovJacobian N x invh2 invlam2).ia.getD i 0)).take
          ((Perovskite.perovJacobian N x invh2 invlam2).ia.getD (i+1) 0
            - (Perovskite.perovJacobian N x invh2 invlam2).ia.getD i 0)) := by
  have hia := Perovskite.perovJacobian_ia N x invh2 invlam2
  have hja := Perovskite.perovJacobian_ja N x invh2 invlam2
  rw [hx] at hia hja
  have hiaD : ∀ k, k ≤ 2 * N →
      (Perovskite.perovJacobian N x invh2 invlam2).ia.getD k 0 = Perovskite.cBefore N k := by
    intro k hk
    rw [hia]
    exact Perovskite.getD_map_range _ _ _ _ (by omega)
  have hlast : Perovskite.cBefore N (2 * N) = 10 * N - 10 := by
    rw [Perovskite.cBefore_eq_iaVal N hN (2 * N) le_rfl, Perovskite.iaVal_last N hN]
  refine ⟨?_, ?_, ?_, ?_, ?_, ?_, ?_, ?_⟩
  · rw [hia]; simp
  · rw [hiaD 0 (by omega)]; simp [Perovskite.cBefore]
  · rw [hiaD (2 * N) le_rfl]; exact hlast
  · rw [Perovskite.perovJacobian_A_length, hx, hlast]
  · rw [hja, Perovskite.jaRows_flatten_length, hlast]
  · rw [hia, List.chain'_map, List.chain'_range_succ]
    intro m _
    rw [Perovskite.cBefore_succ]
    omega
  · intro c hc
    rw [hja, List.mem_flatten] at hc
    obtain ⟨l, hl, hcl⟩ := hc
    rw [List.mem_map] at hl
    obtain ⟨i, hi, rfl⟩ := hl
    rw [List.mem_range] at hi
    exact Perovskite.jaRow_mem_lt N i c hN hi hcl
  · intro i hi
    rw [hja, hiaD i (by omega), hiaD (i+1) (by omega)]
    have hdiff : Perovskite.cBefore N (i+1) - Perovskite.cBefore N i
        = Perovskite.rowLen N i := by
      rw [Perovskite.cBefore_succ]; omega
    rw [hdiff, ← Perovskite.jaRow_length N i,
      ← Perovskite.jaRows_take_sum N (2 * N) i (by omega),
      show Perovskite.jaRow N i
          = ((List.range (2 * N)).map (Perovskite.jaRow N)).getD i []
        from (Perovskite.getD_map_range _ _ _ _ hi).symm]
    rw [Perovskite.flatten_slice (((List.range (2 * N)).map (Perovskite.jaRow N))) i (by simp [hi])]
    rw [Perovskite.getD_map_range _ _ _ _ hi]
    exact Perovskite.jaRow_chain N i hN hi


/-- Witness for `C9_perovskite_jacobian_wellformed`: the concrete case
`N = 2`, `x = [0, 0, 0, 0]`. -/
theorem C9_witness :
    (Perovskite.perovJacobian 2 [0, 0, 0, 0] 0 0).ia.length = 2 * 2 + 1 ∧
    (Perovskite.perovJacobian 2 [0, 0, 0, 0] 0 0).ia.getD 0 0 = 0 ∧
    (Perovskite.perovJacobian 2 [0, 0, 0, 0] 0 0).ia.getD (2 * 2) 0 = 10 * 2 - 10 ∧
    (Perovskite.perovJacobian 2 [0, 0, 0, 0] 0 0).A.length = 10 * 2 - 10 ∧
    (Perovskite.perovJacobian 2 [0, 0, 0, 0] 0 0).ja.length = 10 * 2 - 10 ∧
    List.Chain' (· ≤ ·) (Perovskite.perovJacobian 2 [0, 0, 0, 0] 0 0).ia ∧
    (∀ c ∈ (Perovskite.perovJacobian 2 [0, 0, 0, 0] 0 0).ja, c < 2 * 2) ∧
    ∀ i, i < 2 * 2 →
      List.Chain' (· < ·)
        (((Perovskite.perovJacobian 2 [0, 0, 0, 0] 0 0).ja.drop
            ((Perovskite.perovJacobian 2 [0, 0, 0, 0] 0 0).ia.getD i 0)).take
          ((Perovskite.perovJacobian 2 [0, 0, 0, 0] 0 0).ia.getD (i+1) 0
            - (Perovskite.perovJacobian 2 [0, 0, 0, 0] 0 0).ia.getD i 0)) :=
  C9_perovskite_jacobian_wellformed 2 (by norm_num) [0, 0, 0, 0] (by simp) 0 0

end DaeCpp
